import Mathlib

/-
Formal model of the QuipScript toy language implementations found in this
repository: the line-by-line interpreter and the JIT driver (src/jit.js),
the ahead-of-time compiler (src/compiler.js), and the optimizing
ahead-of-time compiler (src/unnamed/part_000).

Every backend splits the source text on CRLF and dispatches on the first
character of each line: a line starting with p prints, a line starting
with t throws `new Error("ERROR I AM AN INVALID LINE")`, a line starting
with # is skipped, and any other line (the empty line included) has its
full text appended to the single mutable string.

The compilers build JavaScript program text; the JIT driver additionally
evaluates that text with eval, and the compilers persist it with
writeFileSync placed after the loop (so a thrown error prevents any file
from being written).  Because the compilers splice each payload verbatim
between single quotes, the generated text is itself a program whose
meaning we model with a small evaluator for exactly the statement forms
the compilers emit, including the syntax failure that a quote, backslash
or line terminator inside a payload produces.
-/

namespace QS

/-- First character of a line, mirroring the JavaScript expression
line[0] compared with a one-character string; on the empty string the
JavaScript value is undefined, modelled as none. -/
def first? (line : String) : Option Char := line.data.head?

/-- Message of the error thrown by every backend on an invalid line. -/
def invalidMsg : String := "ERROR I AM AN INVALID LINE"

/-- The single-quote character (code point 39), written via its code
point. -/
def sq : Char := Char.ofNat 39

/-- Statement kinds of the toy language, as described by the shared
first-character dispatch of all backends. -/
inductive Stmt where
  | comment : Stmt
  | print : Stmt
  | invalid : Stmt
  | emit : String → Stmt
deriving DecidableEq

/-- Classification of one source line; this is the if-chain that each of
the four backends performs on line[0] (src/compiler.js lines 8-15,
src/jit.js both loops, src/unnamed/part_000 lines 9-16). -/
def classify (line : String) : Stmt :=
  if first? line = some 'p' then .print
  else if first? line = some 't' then .invalid
  else if first? line = some '#' then .comment
  else .emit line

/-- Interpreter loop from src/jit.js (interpreter section, lines 24-33):
state is the mutable variable string, prints are collected in order, and
a line starting with t throws, keeping the output produced so far and
producing no further output.  The second component is the thrown error
message, none on normal completion. -/
def interpretGo : String → List String → List String × Option String
  | _, [] => ([], none)
  | s, line :: rest =>
    if first? line = some 'p' then
      ((s :: (interpretGo s rest).1), (interpretGo s rest).2)
    else if first? line = some 't' then ([], some invalidMsg)
    else if first? line = some '#' then interpretGo s rest
    else interpretGo (s ++ line) rest

/-- Running the interpreter on a list of already-split lines, with the
initial state given by `let string = ""`. -/
def interpret (lines : List String) : List String × Option String :=
  interpretGo "" lines

/-- Compiler loop from src/compiler.js (lines 7-16): the accumulator is
the generated program text, a line starting with t throws before
writeFileSync runs, so an error leaves no output artifact at all. -/
def compileGo : String → List String → Except String String
  | prog, [] => .ok prog
  | prog, line :: rest =>
    if first? line = some 'p' then compileGo (prog ++ "console.log(string)\n") rest
    else if first? line = some 't' then .error invalidMsg
    else if first? line = some '#' then compileGo prog rest
    else compileGo (prog ++ ("string += \x27" ++ line ++ "\x27\n")) rest

/-- The ahead-of-time compiler of src/compiler.js, starting from the
prelude text `let string = ""` plus a newline. -/
def compile (lines : List String) : Except String String :=
  compileGo "let string = \"\"\n" lines

/-- Program-text construction loop of the JIT driver (src/jit.js lines
7-16); textually the same loop as the one in src/compiler.js. -/
def jitCompileGo : String → List String → Except String String
  | prog, [] => .ok prog
  | prog, line :: rest =>
    if first? line = some 'p' then jitCompileGo (prog ++ "console.log(string)\n") rest
    else if first? line = some 't' then .error invalidMsg
    else if first? line = some '#' then jitCompileGo prog rest
    else jitCompileGo (prog ++ ("string += \x27" ++ line ++ "\x27\n")) rest

/-- Program text built by the JIT driver before the final eval. -/
def jitCompile (lines : List String) : Except String String :=
  jitCompileGo "let string = \"\"\n" lines

/-- Optimizing compiler loop from src/unnamed/part_000 (lines 8-17): two
accumulators, the generated program text and the compile-time string
state; a print line bakes the current state into a console.log line, an
emit line only folds into the state. -/
def compileOptGo : String → String → List String → Except String String
  | prog, _, [] => .ok prog
  | prog, s, line :: rest =>
    if first? line = some 'p' then
      compileOptGo (prog ++ ("console.log(\x27" ++ s ++ "\x27)\n")) s rest
    else if first? line = some 't' then .error invalidMsg
    else if first? line = some '#' then compileOptGo prog s rest
    else compileOptGo prog (s ++ line) rest

/-- The optimizing ahead-of-time compiler of src/unnamed/part_000, with
both accumulators initially empty. -/
def compileOpt (lines : List String) : Except String String :=
  compileOptGo "" "" lines

/-- Instructions of the OutputProgram representation: the statement
forms the compilers can emit, viewed semantically. -/
inductive Instr where
  | appendLiteral : String → Instr
  | printCurrent : Instr
  | printLiteral : String → Instr
deriving DecidableEq

/-- The optimizing compiler at instruction granularity: the same loop as
compileOptGo, recording one printLiteral instruction per generated
console.log line and returning the final compile-time state as well. -/
def compileOptGoI : List Instr → String → List String → Except String (List Instr × String)
  | is, s, [] => .ok (is, s)
  | is, s, line :: rest =>
    if first? line = some 'p' then
      compileOptGoI (is ++ [.printLiteral s]) s rest
    else if first? line = some 't' then .error invalidMsg
    else if first? line = some '#' then compileOptGoI is s rest
    else compileOptGoI is (s ++ line) rest

/-- Instruction list of the optimized OutputProgram. -/
def compileOptInstrs (lines : List String) : Except String (List Instr) :=
  (compileOptGoI [] "" lines).map Prod.fst

/-- Textual form of one instruction, exactly as the compilers print it. -/
def renderInstr : Instr → String
  | .appendLiteral t => "string += \x27" ++ t ++ "\x27\n"
  | .printCurrent => "console.log(string)\n"
  | .printLiteral t => "console.log(\x27" ++ t ++ "\x27)\n"

/-- Statement forms that can occur in the generated JavaScript text. -/
inductive GenInstr where
  | decl : GenInstr
  | printVar : GenInstr
  | append : String → GenInstr
  | printLit : String → GenInstr
  | skip : GenInstr
deriving DecidableEq

/-- Decoding of a single-character escape sequence inside a JavaScript
single-quoted string literal.  The named single-character escapes are
exact; the numeric forms (hex, unicode, legacy octal) are simplified to
the identity, which no theorem below depends on, since every theorem
evaluating the generated text does so on payloads without backslashes. -/
def escChar (c : Char) : Char :=
  if c = 'n' then '\n'
  else if c = 't' then '\t'
  else if c = 'r' then '\r'
  else if c = 'b' then Char.ofNat 8
  else if c = 'f' then Char.ofNat 12
  else if c = 'v' then Char.ofNat 11
  else if c = '0' then Char.ofNat 0
  else c

/-- Parser for the body of a JavaScript single-quoted string literal,
starting right after the opening quote: an unescaped quote closes the
literal, a backslash escapes the next character, an unescaped line
terminator or running out of input is a syntax error (none). -/
def parseSQ : List Char → Option (List Char × List Char)
  | [] => none
  | c :: rest =>
    if c = sq then some ([], rest)
    else if c = '\\' then
      match rest with
      | [] => none
      | e :: rest2 => (parseSQ rest2).map (fun p => (escChar e :: p.1, p.2))
    else if c = '\n' ∨ c = '\r' then none
    else (parseSQ rest).map (fun p => (c :: p.1, p.2))

/-- Removes the given expected prefix from a character list, none when
the list does not start with it. -/
def stripPref : List Char → List Char → Option (List Char)
  | [], cs => some cs
  | _ :: _, [] => none
  | p :: ps, c :: cs => if p = c then stripPref ps cs else none

/-- The declaration line emitted once by the compiler prelude. -/
def declLine : String := "let string = \"\""

/-- The print line emitted by the non-optimizing compilers. -/
def printVarLine : String := "console.log(string)"

/-- Leading text of a generated append line, up to and including the
opening quote. -/
def appendHead : String := "string += \x27"

/-- Leading text of a generated optimized print line, up to and
including the opening quote. -/
def printLitHead : String := "console.log(\x27"

/-- Parses one line of the generated JavaScript text into the statement
it denotes, or none if the line is not one of the forms a correct run of
eval would accept (a parse failure anywhere makes the whole program a
syntax error producing no output). -/
def parseGenLine (cs : List Char) : Option GenInstr :=
  if cs = [] then some .skip
  else
    match stripPref declLine.data cs with
    | some [] => some .decl
    | some _ => none
    | none =>
      match stripPref printVarLine.data cs with
      | some [] => some .printVar
      | some _ => none
      | none =>
        match stripPref appendHead.data cs with
        | some rest =>
          match parseSQ rest with
          | some (body, []) => some (.append (String.mk body))
          | _ => none
        | none =>
          match stripPref printLitHead.data cs with
          | some rest =>
            match parseSQ rest with
            | some (body, [cp]) => if cp = ')' then some (.printLit (String.mk body)) else none
            | _ => none
          | none => none

/-- Parses every line of the generated program, failing as a whole if
any line fails, the way eval rejects a program with a syntax error
before executing anything. -/
def parseGen : List (List Char) → Option (List GenInstr)
  | [] => some []
  | l :: ls =>
    match parseGenLine l, parseGen ls with
    | some i, some is => some (i :: is)
    | _, _ => none

/-- Executes the parsed generated program against the mutable string
variable, collecting console.log output in order. -/
def execInstrs : String → List GenInstr → List String
  | _, [] => []
  | _, .decl :: rest => execInstrs "" rest
  | s, .printVar :: rest => s :: execInstrs s rest
  | s, .append l :: rest => execInstrs (s ++ l) rest
  | s, .printLit l :: rest => l :: execInstrs s rest
  | s, .skip :: rest => execInstrs s rest

/-- Splitting on the newline character, with the semantics of the
JavaScript split method: the empty text gives one empty piece, and a
trailing newline gives a trailing empty piece. -/
def splitNL : List Char → List (List Char)
  | [] => [[]]
  | c :: rest =>
    if c = '\n' then [] :: splitNL rest
    else
      match splitNL rest with
      | [] => [[c]]
      | l :: ls => (c :: l) :: ls

/-- Evaluation of a generated program text: split into lines, parse them
all, then run; none models the zero-output syntax failure of eval. -/
def evalGen (text : String) : Option (List String) :=
  (parseGen (splitNL text.data)).map (fun is => execInstrs "" is)

/-- Error value standing for the syntax failure eval raises on a
generated program that does not parse. -/
def evalErrorMsg : String := "SyntaxError"

/-- The JIT driver of src/jit.js: build the program text, then eval it;
a compilation error means eval never runs and nothing is printed. -/
def jitRun (lines : List String) : List String × Option String :=
  match jitCompile lines with
  | .error e => ([], some e)
  | .ok text =>
    match evalGen text with
    | some outs => (outs, none)
    | none => ([], some evalErrorMsg)

/-- Splitting on the two-character CRLF sequence, with the semantics of
the JavaScript split method used on the source text by every backend. -/
def splitCRLF : List Char → List (List Char)
  | [] => [[]]
  | '\r' :: '\n' :: rest => [] :: splitCRLF rest
  | c :: rest =>
    match splitCRLF rest with
    | [] => [[c]]
    | l :: ls => (c :: l) :: ls

/-- Whole pipeline of src/compiler.js from raw source text: split on
CRLF, then run the compiler loop on the resulting lines. -/
def compileSrc (src : String) : Except String String :=
  compile ((splitCRLF src.data).map String.mk)

/-- A character that passes unchanged through the single-quoted literal
the compilers wrap payloads in: not a quote, not a backslash, not a line
terminator. -/
def cleanChar (c : Char) : Bool :=
  !(c == sq || c == '\\' || c == '\n' || c == '\r')

/-- A payload whose characters all survive the quoting unchanged. -/
def cleanLine (l : String) : Prop := ∀ c ∈ l.data, cleanChar c = true

instance (l : String) : Decidable (cleanLine l) := by
  unfold cleanLine
  infer_instance

/-- Zero-based index of the first invalid line, none if there is none. -/
def firstInvalid? : List String → Option Nat
  | [] => none
  | l :: ls =>
    if first? l = some 't' then some 0
    else (firstInvalid? ls).map (· + 1)

/-- Number of print statements of a program. -/
def countPrints (lines : List String) : Nat :=
  (lines.filter (fun l => first? l == some 'p')).length

example : interpret ["hello", "print", " world", "print"] = (["hello", "hello world"], none) := by
  decide

example : compile ["a", "print"] =
    .ok "let string = \"\"\nstring += \x27a\x27\nconsole.log(string)\n" := rfl

example : compileOpt ["hello", "print", " world", "print"] =
    .ok "console.log(\x27hello\x27)\nconsole.log(\x27hello world\x27)\n" := rfl

example : evalGen "let string = \"\"\nstring += \x27a\x27\nconsole.log(string)\n" = some ["a"] := by
  decide

example : evalGen "let string = \"\"\nstring += \x27a\x27b\x27\nconsole.log(string)\n" = none := by
  decide

example : interpret ["a", "tbad", "print"] = ([], some invalidMsg) := by decide

example : jitRun ["hello", "print"] = (["hello"], none) := by decide


/- ## Basic facts about classification -/

theorem mk_data : ∀ s : String, String.mk s.data = s
  | ⟨_⟩ => rfl

theorem classify_print (l : String) (h : first? l = some 'p') : classify l = Stmt.print := by
  simp [classify, h]

theorem classify_invalid (l : String) (h : first? l = some 't') : classify l = Stmt.invalid := by
  simp [classify, h]

theorem classify_comment (l : String) (h : first? l = some '#') : classify l = Stmt.comment := by
  simp [classify, h]

theorem classify_emit (l : String) (h1 : first? l ≠ some 'p') (h2 : first? l ≠ some 't')
    (h3 : first? l ≠ some '#') : classify l = Stmt.emit l := by
  simp [classify, h1, h2, h3]

theorem first_ne_t (l : String) (h : classify l ≠ Stmt.invalid) : first? l ≠ some 't' :=
  fun ht => h (classify_invalid l ht)

theorem first_ne_p (l : String) (h : classify l ≠ Stmt.print) : first? l ≠ some 'p' :=
  fun hp => h (classify_print l hp)

theorem first_t_of_classify (l : String) (h : classify l = Stmt.invalid) :
    first? l = some 't' := by
  by_cases hp : first? l = some 'p'
  · rw [classify_print l hp] at h; exact absurd h (by simp)
  · by_cases ht : first? l = some 't'
    · exact ht
    · by_cases hh : first? l = some '#'
      · rw [classify_comment l hh] at h; exact absurd h (by simp)
      · rw [classify_emit l hp ht hh] at h; exact absurd h (by simp)

/- ## Facts about the interpreter -/

theorem interpretGo_no_error (lines : List String) :
    ∀ s, (∀ l ∈ lines, first? l ≠ some 't') → (interpretGo s lines).2 = none := by
  induction lines with
  | nil => intro s _; rfl
  | cons l ls ih =>
    intro s hv
    have hT : first? l ≠ some 't' := hv l (by simp)
    have hv2 : ∀ x ∈ ls, first? x ≠ some 't' := fun x hx => hv x (by simp [hx])
    by_cases hp : first? l = some 'p'
    · simp [interpretGo, hp, ih _ hv2]
    · by_cases hh : first? l = some '#'
      · simp [interpretGo, hp, hT, hh, ih _ hv2]
      · simp [interpretGo, hp, hT, hh, ih _ hv2]

theorem interpretGo_firstInvalid (lines : List String) :
    ∀ i s, firstInvalid? lines = some i →
      interpretGo s lines = ((interpretGo s (lines.take i)).1, some invalidMsg) := by
  induction lines with
  | nil => intro i s h; simp [firstInvalid?] at h
  | cons l ls ih =>
    intro i s h
    by_cases hT : first? l = some 't'
    · have hi : i = 0 := by simp [firstInvalid?, hT] at h; omega
      subst hi
      have hp : first? l ≠ some 'p' := by rw [hT]; simp
      simp [interpretGo, hp, hT, List.take]
    · have h2 : ∃ j, firstInvalid? ls = some j ∧ i = j + 1 := by
        cases hfi : firstInvalid? ls with
        | none => rw [firstInvalid?, if_neg hT, hfi] at h; simp at h
        | some j =>
          rw [firstInvalid?, if_neg hT, hfi] at h
          simp at h
          exact ⟨j, rfl, h.symm⟩
      obtain ⟨j, hj, rfl⟩ := h2
      by_cases hp : first? l = some 'p'
      · simp [interpretGo, hp, List.take, ih j s hj]
      · by_cases hh : first? l = some '#'
        · simp [interpretGo, hp, hT, hh, List.take, ih j s hj]
        · simp [interpretGo, hp, hT, hh, List.take]
          exact ih j (s ++ l) hj

/-- C2 (amended): on a Program whose first invalid statement sits at
zero-based index i (source line i+1), the interpreter emits exactly the
Print outputs of the statements before that line, in order, and then
fails; the thrown error is the fixed message of the source, which does
not carry the line number. -/
theorem c2_interpreter_partial_progress (lines : List String) (i : Nat)
    (h : firstInvalid? lines = some i) :
    interpret lines = ((interpret (lines.take i)).1, some invalidMsg) := by
  unfold interpret
  rw [interpretGo_firstInvalid lines i "" h]

theorem c2_witness :
    firstInvalid? ["a", "print", "tbad", "b", "print"] = some 2 ∧
    interpret ["a", "print", "tbad", "b", "print"] =
      ((interpret (["a", "print", "tbad", "b", "print"].take 2)).1, some invalidMsg) :=
  ⟨by decide, c2_interpreter_partial_progress _ 2 (by decide)⟩

/-- C2, refuting the claim that the error carries the source line: two
programs whose first invalid statements sit at different source lines
produce exactly the same error value, the constant message thrown by the
source, so the error determines no line number. -/
theorem c2_counterexample :
    firstInvalid? ["ta"] = some 0 ∧ firstInvalid? ["x", "ty"] = some 1 ∧
    (interpret ["ta"]).2 = (interpret ["x", "ty"]).2 := by decide

/- ## Facts about compilation failure -/

theorem compileGo_invalid (lines : List String) (h : ∃ l ∈ lines, first? l = some 't') :
    ∀ pre, compileGo pre lines = .error invalidMsg := by
  induction lines with
  | nil => simp at h
  | cons l ls ih =>
    intro pre
    by_cases hT : first? l = some 't'
    · have hp : first? l ≠ some 'p' := by rw [hT]; simp
      simp [compileGo, hp, hT]
    · have h2 : ∃ x ∈ ls, first? x = some 't' := by
        rcases h with ⟨x, hx, hxt⟩
        rcases List.mem_cons.mp hx with rfl | hx2
        · exact absurd hxt hT
        · exact ⟨x, hx2, hxt⟩
      by_cases hp : first? l = some 'p'
      · simp [compileGo, hp, ih h2]
      · by_cases hh : first? l = some '#'
        · simp [compileGo, hp, hT, hh, ih h2]
        · simp [compileGo, hp, hT, hh, ih h2]

theorem compileOptGo_invalid (lines : List String) (h : ∃ l ∈ lines, first? l = some 't') :
    ∀ pre s, compileOptGo pre s lines = .error invalidMsg := by
  induction lines with
  | nil => simp at h
  | cons l ls ih =>
    intro pre s
    by_cases hT : first? l = some 't'
    · have hp : first? l ≠ some 'p' := by rw [hT]; simp
      simp [compileOptGo, hp, hT]
    · have h2 : ∃ x ∈ ls, first? x = some 't' := by
        rcases h with ⟨x, hx, hxt⟩
        rcases List.mem_cons.mp hx with rfl | hx2
        · exact absurd hxt hT
        · exact ⟨x, hx2, hxt⟩
      by_cases hp : first? l = some 'p'
      · simp [compileOptGo, hp, ih h2]
      · by_cases hh : first? l = some '#'
        · simp [compileOptGo, hp, hT, hh, ih h2]
        · simp [compileOptGo, hp, hT, hh, ih h2]

theorem jitCompileGo_eq (lines : List String) :
    ∀ pre, jitCompileGo pre lines = compileGo pre lines := by
  induction lines with
  | nil => intro pre; rfl
  | cons l ls ih =>
    intro pre
    by_cases hp : first? l = some 'p'
    · simp [jitCompileGo, compileGo, hp, ih]
    · by_cases hT : first? l = some 't'
      · simp [jitCompileGo, compileGo, hp, hT]
      · by_cases hh : first? l = some '#'
        · simp [jitCompileGo, compileGo, hp, hT, hh, ih]
        · simp [jitCompileGo, compileGo, hp, hT, hh, ih]

/-- C3: on a Program containing an invalid statement, the plain
compiler, the optimizing compiler and the JIT driver all throw the
invalid-line error; the compilers return no program text at all (the
file write sits after the loop, so nothing is persisted) and the JIT
prints nothing because eval is never reached. -/
theorem c3_compilers_all_or_nothing (lines : List String)
    (h : ∃ l ∈ lines, classify l = Stmt.invalid) :
    compile lines = .error invalidMsg ∧ compileOpt lines = .error invalidMsg ∧
    jitRun lines = ([], some invalidMsg) := by
  have h2 : ∃ l ∈ lines, first? l = some 't' := by
    rcases h with ⟨l, hl, hc⟩
    exact ⟨l, hl, first_t_of_classify l hc⟩
  have hc : compile lines = .error invalidMsg := compileGo_invalid lines h2 _
  have hj : jitCompile lines = .error invalidMsg := by
    unfold jitCompile
    rw [jitCompileGo_eq]
    exact compileGo_invalid lines h2 _
  refine ⟨hc, compileOptGo_invalid lines h2 "" "", ?_⟩
  unfold jitRun
  rw [hj]

theorem c3_witness :
    (∃ l ∈ ["a", "tbad"], classify l = Stmt.invalid) ∧
    (compile ["a", "tbad"] = .error invalidMsg ∧
     compileOpt ["a", "tbad"] = .error invalidMsg ∧
     jitRun ["a", "tbad"] = ([], some invalidMsg)) :=
  ⟨by decide, c3_compilers_all_or_nothing _ (by decide)⟩

/-- C6: classification is a pure function of the first character of the
line, with the table hash to Comment, p to Print, t to Invalid, any
other character to Emit carrying the full line; the empty line is an
Emit with empty payload. -/
theorem c6_classification_by_first_char (line : String) :
    classify line =
      (match first? line with
       | some c =>
         if c = '#' then Stmt.comment
         else if c = 'p' then Stmt.print
         else if c = 't' then Stmt.invalid
         else Stmt.emit line
       | none => Stmt.emit line) ∧
    classify "" = Stmt.emit "" := by
  refine ⟨?_, by decide⟩
  cases h : first? line with
  | none => simp [classify, h]
  | some c =>
    by_cases h1 : c = '#'
    · subst h1; simp [classify, h]
    · by_cases h2 : c = 'p'
      · subst h2; simp [classify, h]
      · by_cases h3 : c = 't'
        · subst h3; simp [classify, h]
        · simp [classify, h, h1, h2, h3]

/- ## Monotone outputs of the interpreter -/

theorem interpretGo_out_extends (lines : List String) :
    ∀ s o, o ∈ (interpretGo s lines).1 → ∃ t, o = s ++ t := by
  induction lines with
  | nil => intro s o h; simp [interpretGo] at h
  | cons l ls ih =>
    intro s o ho
    by_cases hp : first? l = some 'p'
    · simp only [interpretGo, hp, if_pos, List.mem_cons] at ho
      rcases ho with rfl | ho
      · exact ⟨"", by simp⟩
      · exact ih s o ho
    · by_cases hT : first? l = some 't'
      · simp [interpretGo, hp, hT] at ho
      · by_cases hh : first? l = some '#'
        · simp only [interpretGo, hp, hT, hh, if_neg, if_pos] at ho
          exact ih s o ho
        · simp only [interpretGo, hp, hT, hh, if_neg] at ho
          obtain ⟨t, rfl⟩ := ih (s ++ l) o ho
          exact ⟨l ++ t, by rw [String.append_assoc]⟩

theorem interpretGo_pairwise (lines : List String) :
    ∀ s, List.Pairwise (fun a b => ∃ t, b = a ++ t) (interpretGo s lines).1 := by
  induction lines with
  | nil => intro s; simp [interpretGo]
  | cons l ls ih =>
    intro s
    by_cases hp : first? l = some 'p'
    · have he : interpretGo s (l :: ls) =
          ((s :: (interpretGo s ls).1), (interpretGo s ls).2) := by
        simp [interpretGo, hp]
      rw [he]
      exact List.pairwise_cons.mpr ⟨fun o ho => interpretGo_out_extends ls s o ho, ih s⟩
    · by_cases hT : first? l = some 't'
      · have he : interpretGo s (l :: ls) = ([], some invalidMsg) := by
          simp [interpretGo, hp, hT]
        rw [he]
        simp
      · by_cases hh : first? l = some '#'
        · have he : interpretGo s (l :: ls) = interpretGo s ls := by
            simp [interpretGo, hp, hT, hh]
          rw [he]
          exact ih s
        · have he : interpretGo s (l :: ls) = interpretGo (s ++ l) ls := by
            simp [interpretGo, hp, hT, hh]
          rw [he]
          exact ih (s ++ l)

/-- C9: on a valid Program the sequence of printed strings is monotone
under the prefix ordering; every printed string is a prefix (in the
sense of string concatenation) of every later printed string, because
the state is only ever extended by appending. -/
theorem c9_outputs_prefix_monotone (lines : List String)
    (_hv : ∀ l ∈ lines, classify l ≠ Stmt.invalid) :
    List.Pairwise (fun a b => ∃ t, b = a ++ t) (interpret lines).1 :=
  interpretGo_pairwise lines ""

theorem c9_witness :
    (∀ l ∈ ["ab", "print", "cd", "print"], classify l ≠ Stmt.invalid) ∧
    List.Pairwise (fun a b => ∃ t, b = a ++ t)
      (interpret ["ab", "print", "cd", "print"]).1 :=
  ⟨by decide, c9_outputs_prefix_monotone _ (by decide)⟩

/- ## Success of compilation on valid programs -/

theorem compileGo_valid_ok (lines : List String)
    (hv : ∀ l ∈ lines, first? l ≠ some 't') :
    ∀ pre, ∃ t, compileGo pre lines = .ok t := by
  induction lines with
  | nil => intro pre; exact ⟨pre, rfl⟩
  | cons l ls ih =>
    intro pre
    have hT : first? l ≠ some 't' := hv l (by simp)
    have hv2 : ∀ x ∈ ls, first? x ≠ some 't' := fun x hx => hv x (by simp [hx])
    by_cases hp : first? l = some 'p'
    · obtain ⟨t, ht⟩ := ih hv2 (pre ++ "console.log(string)\n")
      exact ⟨t, by simp [compileGo, hp, ht]⟩
    · by_cases hh : first? l = some '#'
      · obtain ⟨t, ht⟩ := ih hv2 pre
        exact ⟨t, by simp [compileGo, hp, hT, hh, ht]⟩
      · obtain ⟨t, ht⟩ := ih hv2 (pre ++ ("string += \x27" ++ l ++ "\x27\n"))
        exact ⟨t, by simp [compileGo, hp, hT, hh, ht]⟩

/-- C8: the compiler is deterministic; compiling the same valid Program
twice yields the same generated program text, byte for byte. -/
theorem c8_compiler_deterministic (xs ys : List String)
    (hv : ∀ l ∈ xs, classify l ≠ Stmt.invalid) (h : xs = ys) :
    ∃ t, compile xs = .ok t ∧ compile ys = .ok t := by
  subst h
  obtain ⟨t, ht⟩ := compileGo_valid_ok xs (fun l hl => first_ne_t l (hv l hl)) _
  exact ⟨t, ht, ht⟩

theorem c8_witness :
    (∀ l ∈ ["ab", "print"], classify l ≠ Stmt.invalid) ∧
    (∃ t, compile ["ab", "print"] = .ok t ∧ compile ["ab", "print"] = .ok t) :=
  ⟨by decide, c8_compiler_deterministic _ _ (by decide) rfl⟩

/- ## The optimized OutputProgram at instruction granularity -/

/-- Concatenation of a list of strings, used to relate the instruction
view of the optimizing compiler to the program text it accumulates. -/
def catList : List String → String
  | [] => ""
  | x :: xs => x ++ catList xs

theorem catList_append (a b : List String) :
    catList (a ++ b) = catList a ++ catList b := by
  induction a with
  | nil => simp [catList]
  | cons x xs ih => simp [catList, ih, String.append_assoc]

/-- The program text accumulated by compileOptGo is exactly the
rendering of the instruction list recorded by compileOptGoI: the
instruction model is the text model of the source, viewed one generated
line at a time. -/
theorem compileOptGo_render (lines : List String) :
    ∀ s acc pre, compileOptGo (pre ++ catList (acc.map renderInstr)) s lines =
      (compileOptGoI acc s lines).map (fun p => pre ++ catList (p.1.map renderInstr)) := by
  induction lines with
  | nil => intro s acc pre; simp [compileOptGo, compileOptGoI, Except.map]
  | cons l ls ih =>
    intro s acc pre
    by_cases hp : first? l = some 'p'
    · have e1 : (pre ++ catList (acc.map renderInstr)) ++ ("console.log(\x27" ++ s ++ "\x27)\n")
          = pre ++ catList ((acc ++ [Instr.printLiteral s]).map renderInstr) := by
        rw [List.map_append, catList_append]
        simp [catList, renderInstr, String.append_assoc]
      simp only [compileOptGo, compileOptGoI, hp, if_pos]
      rw [e1]
      exact ih s (acc ++ [Instr.printLiteral s]) pre
    · by_cases hT : first? l = some 't'
      · simp [compileOptGo, compileOptGoI, hp, hT, Except.map]
      · by_cases hh : first? l = some '#'
        · simp only [compileOptGo, compileOptGoI, hp, hT, hh, if_neg, if_pos]
          exact ih s acc pre
        · simp only [compileOptGo, compileOptGoI, hp, hT, hh, if_neg]
          exact ih (s ++ l) acc pre

/-- On a valid Program the instructions recorded by the optimizing
compiler are precisely the strings the interpreter would print, each
baked into a printLiteral instruction, in the same order. -/
theorem compileOptGoI_run (lines : List String)
    (hv : ∀ l ∈ lines, first? l ≠ some 't') :
    ∀ acc s, ∃ s2, compileOptGoI acc s lines =
      .ok (acc ++ (interpretGo s lines).1.map Instr.printLiteral, s2) := by
  induction lines with
  | nil => intro acc s; exact ⟨s, by simp [compileOptGoI, interpretGo]⟩
  | cons l ls ih =>
    intro acc s
    have hT : first? l ≠ some 't' := hv l (by simp)
    have hv2 : ∀ x ∈ ls, first? x ≠ some 't' := fun x hx => hv x (by simp [hx])
    by_cases hp : first? l = some 'p'
    · obtain ⟨s2, hok⟩ := ih hv2 (acc ++ [Instr.printLiteral s]) s
      refine ⟨s2, ?_⟩
      simp only [compileOptGoI, interpretGo, hp, if_pos]
      rw [hok]
      simp
    · by_cases hh : first? l = some '#'
      · obtain ⟨s2, hok⟩ := ih hv2 acc s
        refine ⟨s2, ?_⟩
        simp only [compileOptGoI, interpretGo, hp, hT, hh, if_neg, if_pos]
        exact hok
      · obtain ⟨s2, hok⟩ := ih hv2 acc (s ++ l)
        refine ⟨s2, ?_⟩
        simp only [compileOptGoI, interpretGo, hp, hT, hh, if_neg]
        exact hok

theorem countPrints_cons (l : String) (ls : List String) :
    countPrints (l :: ls) =
      if first? l = some 'p' then countPrints ls + 1 else countPrints ls := by
  by_cases h : first? l = some 'p'
  · simp [countPrints, List.filter_cons, h]
  · simp [countPrints, List.filter_cons, h]

/-- On a valid Program the interpreter prints once per print line. -/
theorem interpretGo_length (lines : List String)
    (hv : ∀ l ∈ lines, first? l ≠ some 't') :
    ∀ s, (interpretGo s lines).1.length = countPrints lines := by
  induction lines with
  | nil => intro s; simp [interpretGo, countPrints]
  | cons l ls ih =>
    intro s
    have hT : first? l ≠ some 't' := hv l (by simp)
    have hv2 : ∀ x ∈ ls, first? x ≠ some 't' := fun x hx => hv x (by simp [hx])
    by_cases hp : first? l = some 'p'
    · simp [interpretGo, countPrints_cons, hp, ih hv2 s]
    · by_cases hh : first? l = some '#'
      · simp [interpretGo, countPrints_cons, hp, hT, hh]
        exact ih hv2 s
      · simp [interpretGo, countPrints_cons, hp, hT, hh]
        exact ih hv2 (s ++ l)

/-- C4: on a valid Program the optimized OutputProgram consists solely
of printLiteral instructions, and there are exactly as many of them as
the Program has print statements. -/
theorem c4_optimized_shape (lines : List String)
    (hv : ∀ l ∈ lines, classify l ≠ Stmt.invalid) :
    ∃ is, compileOptInstrs lines = .ok is ∧
      (∀ ins ∈ is, ∃ txt, ins = Instr.printLiteral txt) ∧
      is.length = countPrints lines := by
  have hv2 : ∀ l ∈ lines, first? l ≠ some 't' := fun l hl => first_ne_t l (hv l hl)
  obtain ⟨s2, hok⟩ := compileOptGoI_run lines hv2 [] ""
  refine ⟨(interpretGo "" lines).1.map Instr.printLiteral, ?_, ?_, ?_⟩
  · simp [compileOptInstrs, hok, Except.map]
  · intro ins hins
    obtain ⟨txt, _, rfl⟩ := List.mem_map.mp hins
    exact ⟨txt, rfl⟩
  · rw [List.length_map]
    exact interpretGo_length lines hv2 ""

theorem c4_witness :
    (∀ l ∈ ["ab", "print", "# c", "cd", "print", "dead"], classify l ≠ Stmt.invalid) ∧
    (∃ is, compileOptInstrs ["ab", "print", "# c", "cd", "print", "dead"] = .ok is ∧
      (∀ ins ∈ is, ∃ txt, ins = Instr.printLiteral txt) ∧
      is.length = countPrints ["ab", "print", "# c", "cd", "print", "dead"]) :=
  ⟨by decide, c4_optimized_shape _ (by decide)⟩

theorem compileOptGoI_append (xs ys : List String) :
    ∀ acc s, compileOptGoI acc s (xs ++ ys) =
      match compileOptGoI acc s xs with
      | .ok p => compileOptGoI p.1 p.2 ys
      | .error e => .error e := by
  induction xs with
  | nil => intro acc s; simp [compileOptGoI]
  | cons l ls ih =>
    intro acc s
    by_cases hp : first? l = some 'p'
    · simp only [List.cons_append, compileOptGoI, hp, if_pos]
      exact ih _ _
    · by_cases hT : first? l = some 't'
      · simp [compileOptGoI, hp, hT]
      · by_cases hh : first? l = some '#'
        · simp only [List.cons_append, compileOptGoI, hp, hT, hh, if_neg, if_pos]
          exact ih _ _
        · simp only [List.cons_append, compileOptGoI, hp, hT, hh, if_neg]
          exact ih _ _

theorem compileOptGoI_no_print (ys : List String)
    (h1 : ∀ l ∈ ys, first? l ≠ some 'p') (h2 : ∀ l ∈ ys, first? l ≠ some 't') :
    ∀ acc s, ∃ s2, compileOptGoI acc s ys = .ok (acc, s2) := by
  induction ys with
  | nil => intro acc s; exact ⟨s, rfl⟩
  | cons l ls ih =>
    intro acc s
    have hp := h1 l (by simp)
    have hT := h2 l (by simp)
    have h1a : ∀ x ∈ ls, first? x ≠ some 'p' := fun x hx => h1 x (by simp [hx])
    have h2a : ∀ x ∈ ls, first? x ≠ some 't' := fun x hx => h2 x (by simp [hx])
    by_cases hh : first? l = some '#'
    · obtain ⟨s2, hok⟩ := ih h1a h2a acc s
      exact ⟨s2, by simp [compileOptGoI, hp, hT, hh, hok]⟩
    · obtain ⟨s2, hok⟩ := ih h1a h2a acc (s ++ l)
      exact ⟨s2, by simp [compileOptGoI, hp, hT, hh, hok]⟩

/-- C5: statements after the last print line contribute nothing to the
optimized OutputProgram; appending any suffix containing no print and no
invalid line leaves the instruction list unchanged, and on the concrete
Program abc, print, def the output is the single instruction baking the
text abc. -/
theorem c5_dead_code_elimination (xs ys : List String)
    (h1 : ∀ l ∈ ys, classify l ≠ Stmt.print) (h2 : ∀ l ∈ ys, classify l ≠ Stmt.invalid) :
    compileOptInstrs (xs ++ ys) = compileOptInstrs xs ∧
    compileOptInstrs ["abc", "print", "def"] = .ok [Instr.printLiteral "abc"] := by
  constructor
  · unfold compileOptInstrs
    rw [compileOptGoI_append]
    cases hx : compileOptGoI [] "" xs with
    | error e => simp
    | ok p =>
      obtain ⟨s2, hok⟩ := compileOptGoI_no_print ys
        (fun l hl => first_ne_p l (h1 l hl))
        (fun l hl => first_ne_t l (h2 l hl)) p.1 p.2
      simp [hok, Except.map]
  · rfl

theorem c5_witness :
    (∀ l ∈ ["def"], classify l ≠ Stmt.print) ∧ (∀ l ∈ ["def"], classify l ≠ Stmt.invalid) ∧
    (compileOptInstrs (["abc", "print"] ++ ["def"]) = compileOptInstrs ["abc", "print"] ∧
     compileOptInstrs ["abc", "print", "def"] = .ok [Instr.printLiteral "abc"]) :=
  ⟨by decide, by decide, c5_dead_code_elimination ["abc", "print"] ["def"] (by decide) (by decide)⟩

theorem compileOptGoI_extends (lines : List String) :
    ∀ acc s is s2, compileOptGoI acc s lines = .ok (is, s2) → ∃ d, is = acc ++ d := by
  induction lines with
  | nil =>
    intro acc s is s2 h
    simp [compileOptGoI] at h
    exact ⟨[], by simp [h.1]⟩
  | cons l ls ih =>
    intro acc s is s2 h
    by_cases hp : first? l = some 'p'
    · simp only [compileOptGoI, hp, if_pos] at h
      obtain ⟨d, rfl⟩ := ih _ _ _ _ h
      exact ⟨Instr.printLiteral s :: d, by simp⟩
    · by_cases hT : first? l = some 't'
      · simp [compileOptGoI, hp, hT] at h
      · by_cases hh : first? l = some '#'
        · simp only [compileOptGoI, hp, hT, hh, if_neg, if_pos] at h
          exact ih _ _ _ _ h
        · simp only [compileOptGoI, hp, hT, hh, if_neg] at h
          exact ih _ _ _ _ h

/-- C7: each printLiteral instruction is a snapshot; processing further
statements only ever appends new instructions after the already-emitted
ones and never alters them, so the text of every earlier instruction is
unchanged by later Emit statements. -/
theorem c7_snapshots_never_mutated (xs ys : List String) (is js : List Instr)
    (h1 : compileOptInstrs xs = .ok is) (h2 : compileOptInstrs (xs ++ ys) = .ok js) :
    ∃ d, js = is ++ d := by
  unfold compileOptInstrs at h1 h2
  cases hx : compileOptGoI [] "" xs with
  | error e => rw [hx] at h1; simp [Except.map] at h1
  | ok p =>
    rw [hx] at h1
    simp [Except.map] at h1
    have happ := compileOptGoI_append xs ys [] ""
    rw [hx] at happ
    have happ2 : compileOptGoI [] "" (xs ++ ys) = compileOptGoI p.1 p.2 ys := happ
    rw [happ2] at h2
    cases hy : compileOptGoI p.1 p.2 ys with
    | error e => rw [hy] at h2; simp [Except.map] at h2
    | ok q =>
      rw [hy] at h2
      simp [Except.map] at h2
      obtain ⟨d, hd⟩ := compileOptGoI_extends ys p.1 p.2 q.1 q.2 (by rw [hy])
      exact ⟨d, by rw [← h2, hd, h1]⟩

theorem c7_witness :
    compileOptInstrs ["a", "print"] = .ok [Instr.printLiteral "a"] ∧
    compileOptInstrs (["a", "print"] ++ ["b", "print"]) =
      .ok [Instr.printLiteral "a", Instr.printLiteral "ab"] ∧
    (∃ d, [Instr.printLiteral "a", Instr.printLiteral "ab"] = [Instr.printLiteral "a"] ++ d) :=
  ⟨rfl, rfl, c7_snapshots_never_mutated ["a", "print"] ["b", "print"] _ _ rfl rfl⟩

/- ## Clean payloads and the quoting machinery -/

theorem cleanChar_spec (c : Char) (h : cleanChar c = true) :
    c ≠ sq ∧ c ≠ '\\' ∧ c ≠ '\n' ∧ c ≠ '\r' := by
  refine ⟨?_, ?_, ?_, ?_⟩ <;> intro e <;> rw [e] at h <;> exact absurd h (by decide)

theorem cleanLine_append (a b : String) (ha : cleanLine a) (hb : cleanLine b) :
    cleanLine (a ++ b) := by
  intro c hc
  rw [String.data_append] at hc
  rcases List.mem_append.mp hc with h | h
  · exact ha c h
  · exact hb c h

theorem cleanLine_empty : cleanLine "" := by decide

theorem stripPref_self (p : List Char) : ∀ cs, stripPref p (p ++ cs) = some cs := by
  induction p with
  | nil => intro cs; rfl
  | cons a ps ih => intro cs; simp [stripPref, ih]

theorem stripPref_ne_head (p : List Char) (a b : Char) (q r : List Char) (h : a ≠ b) :
    stripPref (p ++ a :: q) (p ++ b :: r) = none := by
  induction p with
  | nil => simp [stripPref, h]
  | cons x ps ih => simp [stripPref, ih]

theorem parseSQ_cons (c : Char) (rest : List Char) :
    parseSQ (c :: rest) =
      (if c = sq then some ([], rest)
       else if c = '\\' then
         match rest with
         | [] => none
         | e :: rest2 => (parseSQ rest2).map (fun p => (escChar e :: p.1, p.2))
       else if c = '\n' ∨ c = '\r' then none
       else (parseSQ rest).map (fun p => (c :: p.1, p.2))) := by
  cases rest <;> rfl

theorem parseSQ_clean (cs : List Char) (h : ∀ c ∈ cs, cleanChar c = true) :
    ∀ rest, parseSQ (cs ++ sq :: rest) = some (cs, rest) := by
  induction cs with
  | nil =>
    intro rest
    rw [List.nil_append, parseSQ_cons, if_pos rfl]
  | cons c cs ih =>
    intro rest
    obtain ⟨hsq, hbs, hnl, hcr⟩ := cleanChar_spec c (h c (by simp))
    have h2 : ∀ x ∈ cs, cleanChar x = true := fun x hx => h x (by simp [hx])
    have hor : ¬(c = '\n' ∨ c = '\r') := by
      rintro (e | e)
      · exact hnl e
      · exact hcr e
    rw [List.cons_append, parseSQ_cons, if_neg hsq, if_neg hbs, if_neg hor, ih h2 rest]
    rfl

theorem parseGenLine_nil : parseGenLine [] = some GenInstr.skip := rfl

theorem parseGenLine_decl : parseGenLine declLine.data = some GenInstr.decl := by decide

theorem parseGenLine_printVar : parseGenLine printVarLine.data = some GenInstr.printVar := by
  decide

theorem parseGenLine_append (l : String) (h : cleanLine l) :
    parseGenLine ((appendHead ++ l ++ "\x27").data) = some (GenInstr.append l) := by
  have hq : ("\x27" : String).data = [sq] := by decide
  have hdata : (appendHead ++ l ++ "\x27").data = appendHead.data ++ (l.data ++ [sq]) := by
    rw [String.data_append, String.data_append, hq, List.append_assoc]
  have hd : declLine.data = 'l' :: ("et string = \"\"").data := by decide
  have hpv : printVarLine.data = 'c' :: ("onsole.log(string)").data := by decide
  have ha : appendHead.data = 's' :: ("tring += \x27").data := by decide
  have h1 : appendHead.data ++ (l.data ++ [sq]) ≠ [] := by rw [ha]; simp
  have h2 : stripPref declLine.data (appendHead.data ++ (l.data ++ [sq])) = none := by
    rw [hd, ha]; simp [stripPref]
  have h3 : stripPref printVarLine.data (appendHead.data ++ (l.data ++ [sq])) = none := by
    rw [hpv, ha]; simp [stripPref]
  have h4 : stripPref appendHead.data (appendHead.data ++ (l.data ++ [sq]))
      = some (l.data ++ [sq]) := stripPref_self _ _
  have h5 : parseSQ (l.data ++ sq :: []) = some (l.data, []) := parseSQ_clean l.data h []
  rw [hdata]
  simp [parseGenLine, h1, h2, h3, h4, h5, mk_data]

theorem parseGenLine_printLit (s : String) (h : cleanLine s) :
    parseGenLine ((printLitHead ++ s ++ "\x27)").data) = some (GenInstr.printLit s) := by
  have hq : ("\x27)" : String).data = [sq, ')'] := by decide
  have hdata : (printLitHead ++ s ++ "\x27)").data = printLitHead.data ++ (s.data ++ [sq, ')']) := by
    rw [String.data_append, String.data_append, hq, List.append_assoc]
  have hd : declLine.data = 'l' :: ("et string = \"\"").data := by decide
  have hpl : printLitHead.data = 'c' :: ("onsole.log(\x27").data := by decide
  have ha : appendHead.data = 's' :: ("tring += \x27").data := by decide
  have h1 : printLitHead.data ++ (s.data ++ [sq, ')']) ≠ [] := by rw [hpl]; simp
  have h2 : stripPref declLine.data (printLitHead.data ++ (s.data ++ [sq, ')'])) = none := by
    rw [hd, hpl]; simp [stripPref]
  have hsplit : printVarLine.data = ("console.log(").data ++ 's' :: ("tring)").data := by decide
  have hsplit2 : printLitHead.data ++ (s.data ++ [sq, ')'])
      = ("console.log(").data ++ sq :: (s.data ++ [sq, ')']) := by
    have e : printLitHead.data = ("console.log(").data ++ [sq] := by decide
    rw [e]; simp
  have h3 : stripPref printVarLine.data (printLitHead.data ++ (s.data ++ [sq, ')'])) = none := by
    rw [hsplit, hsplit2]
    exact stripPref_ne_head _ _ _ _ _ (by decide)
  have h4 : stripPref appendHead.data (printLitHead.data ++ (s.data ++ [sq, ')'])) = none := by
    rw [ha, hpl]; simp [stripPref]
  have h5 : stripPref printLitHead.data (printLitHead.data ++ (s.data ++ [sq, ')']))
      = some (s.data ++ [sq, ')']) := stripPref_self _ _
  have h6 : parseSQ (s.data ++ sq :: [')']) = some (s.data, [')']) := parseSQ_clean s.data h [')']
  rw [hdata]
  simp [parseGenLine, h1, h2, h3, h4, h5, h6, mk_data]

/- ## Shape of the generated program text -/

/-- The generated lines of the plain compiler, one per non-comment
statement, without the trailing newlines. -/
def genLines : List String → List String
  | [] => []
  | l :: ls =>
    if first? l = some 'p' then printVarLine :: genLines ls
    else if first? l = some 't' then []
    else if first? l = some '#' then genLines ls
    else (appendHead ++ l ++ "\x27") :: genLines ls

/-- The statements denoted by the generated lines of the plain
compiler. -/
def instrsOf : List String → List GenInstr
  | [] => []
  | l :: ls =>
    if first? l = some 'p' then .printVar :: instrsOf ls
    else if first? l = some 't' then []
    else if first? l = some '#' then instrsOf ls
    else .append l :: instrsOf ls

/-- Concatenation of lines, each terminated by a newline, the way the
compilers accumulate their program text. -/
def joinNL : List String → String
  | [] => ""
  | x :: xs => (x ++ "\n") ++ joinNL xs

theorem lit_printVar : ("console.log(string)\n" : String) = printVarLine ++ "\n" := rfl

theorem lit_append (l : String) :
    "string += \x27" ++ l ++ "\x27\n" = (appendHead ++ l ++ "\x27") ++ "\n" := by
  rw [show ("\x27\n" : String) = "\x27" ++ "\n" from rfl, ← String.append_assoc]
  rfl

theorem lit_printLit (s : String) :
    "console.log(\x27" ++ s ++ "\x27)\n" = (printLitHead ++ s ++ "\x27)") ++ "\n" := by
  rw [show ("\x27)\n" : String) = "\x27)" ++ "\n" from rfl, ← String.append_assoc]
  rfl

theorem compileGo_genLines (lines : List String)
    (hv : ∀ l ∈ lines, first? l ≠ some 't') :
    ∀ pre, compileGo pre lines = .ok (pre ++ joinNL (genLines lines)) := by
  induction lines with
  | nil => intro pre; simp [compileGo, genLines, joinNL]
  | cons l ls ih =>
    intro pre
    have hT : first? l ≠ some 't' := hv l (by simp)
    have hv2 : ∀ x ∈ ls, first? x ≠ some 't' := fun x hx => hv x (by simp [hx])
    by_cases hp : first? l = some 'p'
    · simp only [compileGo, hp, if_pos]
      rw [ih hv2 (pre ++ "console.log(string)\n")]
      simp [genLines, hp, joinNL, lit_printVar, String.append_assoc]
    · by_cases hh : first? l = some '#'
      · simp only [compileGo, hp, hT, hh, if_neg, if_pos]
        rw [ih hv2 pre]
        simp [genLines, hp, hT, hh]
      · simp only [compileGo, hp, hT, hh, if_neg]
        rw [ih hv2 (pre ++ ("string += \x27" ++ l ++ "\x27\n"))]
        simp [genLines, hp, hT, hh, joinNL, lit_append, String.append_assoc, appendHead]

theorem noNL_genLines (lines : List String)
    (hv : ∀ l ∈ lines, first? l ≠ some 't')
    (hc : ∀ l ∈ lines, classify l = Stmt.emit l → cleanLine l) :
    ∀ g ∈ genLines lines, '\n' ∉ g.data := by
  induction lines with
  | nil => simp [genLines]
  | cons l ls ih =>
    have hT : first? l ≠ some 't' := hv l (by simp)
    have hv2 : ∀ x ∈ ls, first? x ≠ some 't' := fun x hx => hv x (by simp [hx])
    have hc2 : ∀ x ∈ ls, classify x = Stmt.emit x → cleanLine x :=
      fun x hx => hc x (by simp [hx])
    by_cases hp : first? l = some 'p'
    · simp only [genLines, hp, if_pos]
      intro g hg
      rcases List.mem_cons.mp hg with rfl | hg
      · decide
      · exact ih hv2 hc2 g hg
    · by_cases hh : first? l = some '#'
      · simp only [genLines, hp, hT, hh, if_neg, if_pos]
        exact ih hv2 hc2
      · simp only [genLines, hp, hT, hh, if_neg]
        intro g hg
        rcases List.mem_cons.mp hg with rfl | hg
        · have hcl : cleanLine l := hc l (by simp) (classify_emit l hp hT hh)
          have hq : ("\x27" : String).data = [sq] := by decide
          have hdata : (appendHead ++ l ++ "\x27").data
              = appendHead.data ++ (l.data ++ [sq]) := by
            rw [String.data_append, String.data_append, hq, List.append_assoc]
          rw [hdata]
          intro hm
          rcases List.mem_append.mp hm with hm | hm
          · exact absurd hm (by decide)
          · rcases List.mem_append.mp hm with hm | hm
            · exact absurd (hcl _ hm) (by decide)
            · simp at hm
              exact absurd hm (by decide)
        · exact ih hv2 hc2 g hg

theorem splitNL_append (l : List Char) (h : '\n' ∉ l) :
    ∀ rest, splitNL (l ++ '\n' :: rest) = l :: splitNL rest := by
  induction l with
  | nil => intro rest; simp [splitNL]
  | cons c cs ih =>
    intro rest
    have hc : c ≠ '\n' := fun e => h (by simp [e])
    have h2 : '\n' ∉ cs := fun hm => h (by simp [hm])
    rw [List.cons_append, splitNL, if_neg hc, ih h2 rest]

theorem splitNL_joinNL (ls : List String) (h : ∀ l ∈ ls, '\n' ∉ l.data) :
    splitNL (joinNL ls).data = ls.map String.data ++ [[]] := by
  induction ls with
  | nil =>
    have e : (joinNL []).data = [] := rfl
    rw [e]
    rfl
  | cons x xs ih =>
    have hx := h x (by simp)
    have h2 : ∀ l ∈ xs, '\n' ∉ l.data := fun l hl => h l (by simp [hl])
    have hn : ("\n" : String).data = ['\n'] := rfl
    have hdata : (joinNL (x :: xs)).data = x.data ++ '\n' :: (joinNL xs).data := by
      simp [joinNL, String.data_append, hn]
    rw [hdata, splitNL_append x.data hx, ih h2]
    simp

/- ## Parsing and running the generated text -/

theorem parseGen_genLines (lines : List String)
    (hv : ∀ l ∈ lines, first? l ≠ some 't')
    (hc : ∀ l ∈ lines, classify l = Stmt.emit l → cleanLine l) :
    parseGen ((genLines lines).map String.data ++ [[]])
      = some (instrsOf lines ++ [GenInstr.skip]) := by
  induction lines with
  | nil => rfl
  | cons l ls ih =>
    have hT : first? l ≠ some 't' := hv l (by simp)
    have hv2 : ∀ x ∈ ls, first? x ≠ some 't' := fun x hx => hv x (by simp [hx])
    have hc2 : ∀ x ∈ ls, classify x = Stmt.emit x → cleanLine x :=
      fun x hx => hc x (by simp [hx])
    by_cases hp : first? l = some 'p'
    · have e1 : genLines (l :: ls) = printVarLine :: genLines ls := by
        rw [genLines, if_pos hp]
      have e2 : instrsOf (l :: ls) = GenInstr.printVar :: instrsOf ls := by
        rw [instrsOf, if_pos hp]
      rw [e1, e2, List.map_cons, List.cons_append, parseGen, parseGenLine_printVar, ih hv2 hc2]
      rfl
    · by_cases hh : first? l = some '#'
      · have e1 : genLines (l :: ls) = genLines ls := by
          rw [genLines, if_neg hp, if_neg hT, if_pos hh]
        have e2 : instrsOf (l :: ls) = instrsOf ls := by
          rw [instrsOf, if_neg hp, if_neg hT, if_pos hh]
        rw [e1, e2]
        exact ih hv2 hc2
      · have hcl : cleanLine l := hc l (by simp) (classify_emit l hp hT hh)
        have e1 : genLines (l :: ls) = (appendHead ++ l ++ "\x27") :: genLines ls := by
          rw [genLines, if_neg hp, if_neg hT, if_neg hh]
        have e2 : instrsOf (l :: ls) = GenInstr.append l :: instrsOf ls := by
          rw [instrsOf, if_neg hp, if_neg hT, if_neg hh]
        rw [e1, e2, List.map_cons, List.cons_append, parseGen, parseGenLine_append l hcl,
          ih hv2 hc2]
        rfl

theorem parseGen_printLits (outs : List String) (hcl : ∀ o ∈ outs, cleanLine o) :
    parseGen ((outs.map (fun o => (printLitHead ++ o ++ "\x27)").data)) ++ [[]])
      = some (outs.map GenInstr.printLit ++ [GenInstr.skip]) := by
  induction outs with
  | nil => rfl
  | cons o os ih =>
    rw [List.map_cons, List.cons_append, parseGen, parseGenLine_printLit o (hcl o (by simp)),
      ih (fun x hx => hcl x (by simp [hx]))]
    rfl

theorem execInstrs_instrsOf (lines : List String)
    (hv : ∀ l ∈ lines, first? l ≠ some 't') :
    ∀ s, execInstrs s (instrsOf lines ++ [GenInstr.skip]) = (interpretGo s lines).1 := by
  induction lines with
  | nil => intro s; simp [instrsOf, execInstrs, interpretGo]
  | cons l ls ih =>
    intro s
    have hT : first? l ≠ some 't' := hv l (by simp)
    have hv2 : ∀ x ∈ ls, first? x ≠ some 't' := fun x hx => hv x (by simp [hx])
    by_cases hp : first? l = some 'p'
    · simp only [instrsOf, interpretGo, hp, if_pos, List.cons_append, execInstrs]
      rw [ih hv2 s]
    · by_cases hh : first? l = some '#'
      · simp only [instrsOf, interpretGo, hp, hT, hh, if_neg, if_pos]
        exact ih hv2 s
      · simp only [instrsOf, interpretGo, hp, hT, hh, if_neg, List.cons_append, execInstrs]
        exact ih hv2 (s ++ l)

theorem execInstrs_printLits (outs : List String) :
    ∀ s, execInstrs s (outs.map GenInstr.printLit ++ [GenInstr.skip]) = outs := by
  induction outs with
  | nil => intro s; simp [execInstrs]
  | cons o os ih => intro s; simp [execInstrs, ih s]

theorem interpretGo_out_clean (lines : List String)
    (hv : ∀ l ∈ lines, first? l ≠ some 't')
    (hc : ∀ l ∈ lines, classify l = Stmt.emit l → cleanLine l) :
    ∀ s, cleanLine s → ∀ o ∈ (interpretGo s lines).1, cleanLine o := by
  induction lines with
  | nil => intro s _ o ho; simp [interpretGo] at ho
  | cons l ls ih =>
    intro s hs o ho
    have hT : first? l ≠ some 't' := hv l (by simp)
    have hv2 : ∀ x ∈ ls, first? x ≠ some 't' := fun x hx => hv x (by simp [hx])
    have hc2 : ∀ x ∈ ls, classify x = Stmt.emit x → cleanLine x :=
      fun x hx => hc x (by simp [hx])
    by_cases hp : first? l = some 'p'
    · simp only [interpretGo, hp, if_pos, List.mem_cons] at ho
      rcases ho with rfl | ho
      · exact hs
      · exact ih hv2 hc2 s hs o ho
    · by_cases hh : first? l = some '#'
      · simp only [interpretGo, hp, hT, hh, if_neg, if_pos] at ho
        exact ih hv2 hc2 s hs o ho
      · simp only [interpretGo, hp, hT, hh, if_neg] at ho
        have hcl : cleanLine l := hc l (by simp) (classify_emit l hp hT hh)
        exact ih hv2 hc2 (s ++ l) (cleanLine_append s l hs hcl) o ho

theorem catList_render_opt (outs : List String) :
    catList ((outs.map Instr.printLiteral).map renderInstr) =
      joinNL (outs.map (fun o => printLitHead ++ o ++ "\x27)")) := by
  induction outs with
  | nil => rfl
  | cons o os ih =>
    rw [List.map_cons, List.map_cons, List.map_cons, catList, joinNL]
    rw [show renderInstr (Instr.printLiteral o) = "console.log(\x27" ++ o ++ "\x27)\n" from rfl]
    rw [lit_printLit, ih]

/- ## C1: cross-strategy equivalence on clean valid programs -/

theorem evalGen_compiled (lines : List String)
    (hv : ∀ l ∈ lines, first? l ≠ some 't')
    (hc : ∀ l ∈ lines, classify l = Stmt.emit l → cleanLine l) :
    evalGen ("let string = \"\"\n" ++ joinNL (genLines lines))
      = some ((interpretGo "" lines).1) := by
  have hdecl : ("let string = \"\"\n" ++ joinNL (genLines lines))
      = joinNL (declLine :: genLines lines) := by
    rw [joinNL]
    rfl
  have hnlAll : ∀ g ∈ declLine :: genLines lines, '\n' ∉ g.data := by
    intro g hg
    rcases List.mem_cons.mp hg with rfl | hg
    · decide
    · exact noNL_genLines lines hv hc g hg
  rw [hdecl]
  unfold evalGen
  rw [splitNL_joinNL _ hnlAll, List.map_cons, List.cons_append, parseGen, parseGenLine_decl,
    parseGen_genLines lines hv hc]
  show some (execInstrs "" (GenInstr.decl :: (instrsOf lines ++ [GenInstr.skip])))
      = some ((interpretGo "" lines).1)
  show some (execInstrs "" (instrsOf lines ++ [GenInstr.skip]))
      = some ((interpretGo "" lines).1)
  rw [execInstrs_instrsOf lines hv ""]

theorem evalGen_optimized (lines : List String)
    (hv : ∀ l ∈ lines, first? l ≠ some 't')
    (hc : ∀ l ∈ lines, classify l = Stmt.emit l → cleanLine l) :
    ∃ t, compileOpt lines = .ok t ∧ evalGen t = some ((interpretGo "" lines).1) := by
  obtain ⟨s2, hok⟩ := compileOptGoI_run lines hv [] ""
  rw [List.nil_append] at hok
  have hrender : compileOpt lines =
      (compileOptGoI [] "" lines).map (fun p => "" ++ catList (p.1.map renderInstr)) :=
    compileOptGo_render lines "" [] ""
  rw [hok] at hrender
  simp only [Except.map] at hrender
  have hnil : ∀ x : String, "" ++ x = x := fun x => by
    apply String.ext
    rw [String.data_append]
    rfl
  rw [hnil] at hrender
  refine ⟨_, hrender, ?_⟩
  rw [catList_render_opt]
  have hclean : ∀ o ∈ (interpretGo "" lines).1, cleanLine o :=
    interpretGo_out_clean lines hv hc "" cleanLine_empty
  have hnl2 : ∀ g ∈ (interpretGo "" lines).1.map (fun o => printLitHead ++ o ++ "\x27)"),
      '\n' ∉ g.data := by
    intro g hg
    obtain ⟨o, ho, rfl⟩ := List.mem_map.mp hg
    have hq : ("\x27)" : String).data = [sq, ')'] := by decide
    have hdata : (printLitHead ++ o ++ "\x27)").data
        = printLitHead.data ++ (o.data ++ [sq, ')']) := by
      rw [String.data_append, String.data_append, hq, List.append_assoc]
    rw [hdata]
    intro hm
    rcases List.mem_append.mp hm with hm | hm
    · exact absurd hm (by decide)
    · rcases List.mem_append.mp hm with hm | hm
      · exact absurd (hclean o ho _ hm) (by decide)
      · rcases List.mem_cons.mp hm with e | hm
        · exact absurd e (by decide)
        · rcases List.mem_cons.mp hm with e | hm
          · exact absurd e (by decide)
          · simp at hm
  unfold evalGen
  rw [splitNL_joinNL _ hnl2, List.map_map]
  have hcomp : (String.data ∘ fun o => printLitHead ++ o ++ "\x27)")
      = fun o => (printLitHead ++ o ++ "\x27)").data := rfl
  rw [hcomp, parseGen_printLits _ hclean]
  show some (execInstrs ""
      ((interpretGo "" lines).1.map GenInstr.printLit ++ [GenInstr.skip]))
      = some ((interpretGo "" lines).1)
  rw [execInstrs_printLits]

/-- C1 (amended): for every valid Program all of whose Emit payloads are
free of single quotes, backslashes and line terminators, the four
strategies agree: the interpreter output equals the output of running
the program text built by the plain compiler, equals the output of
running the optimized program text, equals the JIT output.  The
restriction on payloads is necessary: the compilers splice payloads
verbatim into single-quoted literals, so a payload containing such a
character changes or breaks the generated program (see the
counterexample). -/
theorem c1_cross_strategy_equivalence (lines : List String)
    (hv : ∀ l ∈ lines, classify l ≠ Stmt.invalid)
    (hc : ∀ l ∈ lines, classify l = Stmt.emit l → cleanLine l) :
    ∃ outs,
      interpret lines = (outs, none) ∧
      (∃ t, compile lines = .ok t ∧ evalGen t = some outs) ∧
      (∃ t, compileOpt lines = .ok t ∧ evalGen t = some outs) ∧
      jitRun lines = (outs, none) := by
  have hv2 : ∀ l ∈ lines, first? l ≠ some 't' := fun l hl => first_ne_t l (hv l hl)
  have htext : compile lines = .ok ("let string = \"\"\n" ++ joinNL (genLines lines)) :=
    compileGo_genLines lines hv2 _
  have heval := evalGen_compiled lines hv2 hc
  refine ⟨(interpretGo "" lines).1, ?_, ⟨_, htext, heval⟩, evalGen_optimized lines hv2 hc, ?_⟩
  · unfold interpret
    have h2 := interpretGo_no_error lines "" hv2
    rw [← h2]
  · have hjit : jitCompile lines = .ok ("let string = \"\"\n" ++ joinNL (genLines lines)) := by
      unfold jitCompile
      rw [jitCompileGo_eq]
      exact htext
    unfold jitRun
    rw [hjit]
    simp [heval]

theorem c1_witness :
    (∀ l ∈ ["hello", "print", " world", "print"], classify l ≠ Stmt.invalid) ∧
    (∀ l ∈ ["hello", "print", " world", "print"],
      classify l = Stmt.emit l → cleanLine l) ∧
    (∃ outs,
      interpret ["hello", "print", " world", "print"] = (outs, none) ∧
      (∃ t, compile ["hello", "print", " world", "print"] = .ok t ∧
        evalGen t = some outs) ∧
      (∃ t, compileOpt ["hello", "print", " world", "print"] = .ok t ∧
        evalGen t = some outs) ∧
      jitRun ["hello", "print", " world", "print"] = (outs, none)) :=
  ⟨by decide, by decide, c1_cross_strategy_equivalence _ (by decide) (by decide)⟩

/-- C1, refuting the claim for payloads containing a quote: on the valid
Program with Emit payload containing a single quote the interpreter
prints the payload, but the JIT fails with a syntax error and prints
nothing, and executing the program text the plain compiler persists also
yields a syntax failure with no output, so the output sequences differ. -/
theorem c1_counterexample :
    (interpret ["a\x27b", "print"]).1 = ["a\x27b"] ∧
    jitRun ["a\x27b", "print"] = ([], some evalErrorMsg) ∧
    (∃ t, compile ["a\x27b", "print"] = .ok t ∧ evalGen t = none) :=
  ⟨by decide, by decide,
    ⟨"let string = \"\"\nstring += \x27a\x27b\x27\nconsole.log(string)\n", rfl, by decide⟩⟩

/- ## C10: the prelude line and the empty source text -/

theorem compileGo_ok_pre (lines : List String) :
    ∀ pre t, compileGo pre lines = .ok t → ∃ d, t = pre ++ d := by
  induction lines with
  | nil =>
    intro pre t h
    simp [compileGo] at h
    exact ⟨"", by simp [h]⟩
  | cons l ls ih =>
    intro pre t h
    by_cases hp : first? l = some 'p'
    · rw [compileGo, if_pos hp] at h
      obtain ⟨d, rfl⟩ := ih _ _ h
      exact ⟨"console.log(string)\n" ++ d, by rw [String.append_assoc]⟩
    · by_cases hT : first? l = some 't'
      · rw [compileGo, if_neg hp, if_pos hT] at h
        exact absurd h (by simp)
      · by_cases hh : first? l = some '#'
        · rw [compileGo, if_neg hp, if_neg hT, if_pos hh] at h
          exact ih _ _ h
        · rw [compileGo, if_neg hp, if_neg hT, if_neg hh] at h
          obtain ⟨d, rfl⟩ := ih _ _ h
          exact ⟨("string += \x27" ++ l ++ "\x27\n") ++ d, by rw [String.append_assoc]⟩

/-- C10: every program text the plain compiler persists begins with the
initialization line; the empty source text splits into exactly one empty
line, an Emit with empty payload, so compiling it succeeds, and running
the resulting program prints nothing. -/
theorem c10_prelude_and_empty_source (source t : String)
    (h : compileSrc source = Except.ok t) :
    (∃ rest, t = "let string = \"\"" ++ rest) ∧
    splitCRLF ("" : String).data = [[]] ∧
    classify "" = Stmt.emit "" ∧
    compileSrc "" = Except.ok "let string = \"\"\nstring += \x27\x27\n" ∧
    evalGen "let string = \"\"\nstring += \x27\x27\n" = some [] := by
  refine ⟨?_, by decide, by decide, rfl, by decide⟩
  unfold compileSrc compile at h
  obtain ⟨d, rfl⟩ := compileGo_ok_pre _ _ _ h
  exact ⟨"\n" ++ d, by
    rw [show ("let string = \"\"\n" : String) = "let string = \"\"" ++ "\n" from rfl,
      String.append_assoc]⟩

theorem c10_witness :
    compileSrc "" = Except.ok "let string = \"\"\nstring += \x27\x27\n" ∧
    ((∃ rest, ("let string = \"\"\nstring += \x27\x27\n" : String)
        = "let string = \"\"" ++ rest) ∧
     splitCRLF ("" : String).data = [[]] ∧
     classify "" = Stmt.emit "" ∧
     compileSrc "" = Except.ok "let string = \"\"\nstring += \x27\x27\n" ∧
     evalGen "let string = \"\"\nstring += \x27\x27\n" = some []) :=
  ⟨rfl, c10_prelude_and_empty_source "" _ rfl⟩

end QS
